import Mathlib

/-!
Shallow embedding of the core logic of `src/app.py` (class `ExamGenerator`).

The repository is a Streamlit app; everything modelled here is the pure
control flow contributed by the repository itself:

* `preprocess_text` (app.py lines 162-174): whitespace collapsing via
  `re.sub(r'\s+', ' ', text)`, `str.strip()`, sentence tokenization
  (delegated to the external `nltk.sent_tokenize`, modelled as an abstract
  function parameter `tok`), and the word-count filter
  `[s for s in sentences if len(s.split()) > 5]`.
* the diverse-sentence selection loop of `generate_questions`
  (app.py lines 183-203): greedy selection seeded with index 0, scoring
  each untaken candidate by the arithmetic mean of its Euclidean distances
  to the already selected embeddings and taking the strict argmax scanned
  left to right.  `torch.dist` on the embedding vectors is abstracted as a
  distance function `d`; for the concrete end-to-end scenario it is
  instantiated with the genuine Euclidean distance over `ℝ`.
* the question-emission loop of `generate_questions`
  (app.py lines 205-224): per-sentence try/except with `continue`, the
  `st.error` call on the exception path (modelled as an error counter),
  the truthiness guard `if generated and len(generated) > 0`, and the
  verbatim answer `'answer': qa_input`.

Python `int` is modelled as `ℤ`; the numeric scores are modelled over an
arbitrary `LinearOrderedField` (instantiated at `ℚ` for executable
witnesses and at `ℝ` for the genuine Euclidean geometry).
-/

/-- Python whitespace class `\s` restricted to ASCII: the characters
matched by `re.sub(r'\s+', ' ', text)`, by `str.strip()` and by
`str.split()` in `preprocess_text`. -/
def pyIsSpace (c : Char) : Bool :=
  c == ' ' || c == '\t' || c == '\n' || c == '\r' || c == '\x0b' || c == '\x0c'

/-- Worker for `re.sub(r'\s+', ' ', text)`: the boolean flag records
whether the previous character belonged to a whitespace run, so each
maximal run of whitespace is emitted as a single `' '`. -/
def collapseAux : Bool → List Char → List Char
  | _, [] => []
  | prevWs, c :: rest =>
    if pyIsSpace c then
      if prevWs then collapseAux true rest else ' ' :: collapseAux true rest
    else c :: collapseAux false rest

/-- The substitution `re.sub(r'\s+', ' ', text)` of app.py line 166. -/
def collapseWs (s : List Char) : List Char := collapseAux false s

/-- Python `str.strip()` of app.py line 167: drop whitespace from both ends. -/
def pyStrip (s : List Char) : List Char :=
  ((s.dropWhile pyIsSpace).reverse.dropWhile pyIsSpace).reverse

/-- Word counter matching Python `len(s.split())`: the number of maximal
runs of non-whitespace characters.  The flag records whether the scanner
is currently inside a word. -/
def wordCountAux : Bool → List Char → Nat
  | _, [] => 0
  | inWord, c :: rest =>
    if pyIsSpace c then wordCountAux false rest
    else (if inWord then 0 else 1) + wordCountAux true rest

/-- Python `len(s.split())` for a string `s`. -/
def wordCount (s : List Char) : Nat := wordCountAux false s

/-- Method `ExamGenerator.preprocess_text` (app.py lines 162-174).  The external
`nltk.sent_tokenize` is passed in as `tok`; the repository code only
contributes the emptiness guard, the cleaning and the `> 5`-word filter. -/
def preprocess_text (tok : List Char → List (List Char)) (text : List Char) :
    List (List Char) :=
  if text = [] then []
  else (tok (pyStrip (collapseWs text))).filter fun s => 5 < wordCount s

/-- The diversity score of candidate `i` against the already selected
indices `sel` (app.py lines 195-198):
`torch.mean` of the `torch.dist` values from embedding `i` to each selected
embedding, i.e. the arithmetic mean of the distances `d i j` for `j ∈ sel`. -/
def diversityScore {α : Type} [LinearOrderedField α]
    (d : ℤ → ℤ → α) (sel : List ℤ) (i : ℤ) : α :=
  (sel.map fun j => d i j).sum / (sel.length : α)

/-- Body of the candidate scan of app.py lines 193-201.  The accumulator is
the pair `(max_diff, max_idx)`, initialised to `(-1, -1)`; a candidate
`i ∉ sel` replaces it exactly when its score is strictly larger. -/
def scanF {α : Type} [LinearOrderedField α] (d : ℤ → ℤ → α) (sel : List ℤ) :
    (α × ℤ) → ℕ → (α × ℤ) := fun acc i =>
  if (i : ℤ) ∈ sel then acc
  else
    let diff := diversityScore d sel (i : ℤ)
    if diff > acc.1 then (diff, (i : ℤ)) else acc

/-- The inner `for i in range(len(sentences))` scan of app.py lines 189-201,
returning the final `(max_diff, max_idx)`. -/
def innerLoop {α : Type} [LinearOrderedField α]
    (d : ℤ → ℤ → α) (n : ℕ) (sel : List ℤ) : α × ℤ :=
  (List.range n).foldl (scanF d sel) (-1, -1)

/-- One iteration of the selection loop of app.py lines 184-203: seed with
index 0 when nothing is selected yet, otherwise append `max_idx`. -/
def selectStep {α : Type} [LinearOrderedField α]
    (d : ℤ → ℤ → α) (n : ℕ) (sel : List ℤ) : List ℤ :=
  if sel.isEmpty then sel ++ [0]
  else sel ++ [(innerLoop d n sel).2]

/-- The selection loop of `generate_questions` (app.py lines 183-203):
`for _ in range(min(num_questions, len(sentences)))` applied to the empty
starting list, where `n` is `len(sentences)` and `k` is `num_questions`
(a Python `int`, hence `ℤ`; `range` of a non-positive bound is empty). -/
def selectIndices {α : Type} [LinearOrderedField α]
    (d : ℤ → ℤ → α) (n : ℕ) (k : ℤ) : List ℤ :=
  (selectStep d n)^[(min k (n : ℤ)).toNat] []

/-- Python list indexing `xs[i]` for `i : ℤ` as used by `sentences[idx]`
(app.py line 208): negative indices address from the end, and an
out-of-range index raises `IndexError`, modelled as `none`. -/
def pyGet (xs : List String) (i : ℤ) : Option String :=
  if 0 ≤ i then xs[i.toNat]?
  else if (xs.length : ℤ) + i < 0 then none
  else xs[((xs.length : ℤ) + i).toNat]?

/-- Body of the question-emission loop of app.py lines 206-222.  The
accumulator holds the `questions` list paired with the number of
`st.error` reports issued so far.  The generation pipeline is abstracted
as `gen`, returning either an exception (`Except.error`) or the list of
`generated_text` strings; a lookup failure of `sentences[idx]` raises
inside the `try`, hence also reaches the `except` branch. -/
def emitStep (sents : List String) (gen : String → Except Unit (List String)) :
    (List (String × String) × ℕ) → ℤ → (List (String × String) × ℕ) :=
  fun acc idx =>
  match pyGet sents idx with
  | none => (acc.1, acc.2 + 1)
  | some qa_input =>
    match gen qa_input with
    | Except.error _ => (acc.1, acc.2 + 1)
    | Except.ok generated =>
      match generated with
      | [] => acc
      | g :: _ => (acc.1 ++ [(g, qa_input)], acc.2)

/-- The question-emission loop of app.py lines 205-224 together with the
count of `st.error` reports. -/
def emitWithLog (sents : List String) (gen : String → Except Unit (List String))
    (sel : List ℤ) : List (String × String) × ℕ :=
  sel.foldl (emitStep sents gen) ([], 0)

/-- The `questions` list returned by the emission loop: each element is the
pair `(question, answer)` appended at app.py lines 216-219. -/
def emitQuestions (sents : List String) (gen : String → Except Unit (List String))
    (sel : List ℤ) : List (String × String) :=
  (emitWithLog sents gen sel).1

/-- The contribution of one selected index to the emitted list: `none`
when the lookup fails, the generation call fails, or the generated list is
empty (falsy); otherwise the pair of the first generated text with the
verbatim source sentence. -/
def emitOne (sents : List String) (gen : String → Except Unit (List String))
    (idx : ℤ) : Option (String × String) :=
  match pyGet sents idx with
  | none => none
  | some qa_input =>
    match gen qa_input with
    | Except.error _ => none
    | Except.ok [] => none
    | Except.ok (g :: _) => some (g, qa_input)

/-- Whether processing index `idx` reaches the `except` branch and hence
issues an `st.error` report (app.py lines 220-222). -/
def errFlag (sents : List String) (gen : String → Except Unit (List String))
    (idx : ℤ) : Bool :=
  match pyGet sents idx with
  | none => true
  | some qa_input =>
    match gen qa_input with
    | Except.error _ => true
    | Except.ok _ => false

/-- Method `ExamGenerator.generate_questions` (app.py lines 176-224): selection
followed by emission.  The embedding model only enters through the
pairwise distances `d`, and the generation pipeline through `gen`. -/
def generate_questions {α : Type} [LinearOrderedField α] (d : ℤ → ℤ → α)
    (gen : String → Except Unit (List String)) (sentences : List String)
    (num_questions : ℤ) : List (String × String) :=
  emitQuestions sentences gen (selectIndices d sentences.length num_questions)

/-- Euclidean distance (`torch.dist` with its default `p = 2`) between two
embedding vectors. -/
noncomputable def euclidDist (u v : List ℝ) : ℝ :=
  Real.sqrt (((u.zip v).map fun p => (p.1 - p.2) ^ 2).sum)

/-- The three embeddings of the end-to-end scenario of the specification:
`[(0,0), (10,0), (0,10)]`. -/
def exEmb : ℤ → List ℝ := fun i =>
  if i = 0 then [0, 0] else if i = 1 then [10, 0] else [0, 10]

/-- The pairwise Euclidean distances of the end-to-end scenario. -/
noncomputable def exampleDist : ℤ → ℤ → ℝ := fun i j => euclidDist (exEmb i) (exEmb j)

/-- A concrete rational distance function used to exercise the generic
selection theorems on executable inputs. -/
def qdist : ℤ → ℤ → ℚ := fun i j => ((i - j).natAbs : ℚ)

/-- The input of the filter-correctness scenario of the specification. -/
def exInput : List Char := ("Short. This sentence has more than five words in it.").data

/-- The first sentence produced by the sentence tokenizer on `exInput`. -/
def exS1 : List Char := ("Short.").data

/-- The second sentence produced by the sentence tokenizer on `exInput`. -/
def exS2 : List Char := ("This sentence has more than five words in it.").data

/-- A concrete stand-in for `nltk.sent_tokenize` agreeing with the standard
tokenizer on the filter-correctness scenario input. -/
def exTok : List Char → List (List Char) := fun t =>
  if t = exInput then [exS1, exS2] else [t]

/-- Five concrete sentences for the partial-failure scenario. -/
def exSents : List String := ["s0", "s1", "s2", "s3", "s4"]

/-- A concrete generation model failing on exactly the third sentence and
producing one output for every other one. -/
def exGen : String → Except Unit (List String) := fun s =>
  if s = "s2" then Except.error () else Except.ok [String.append "Q" s]

/-! ### Structural lemmas about the selection loop -/

section SelectionLemmas

variable {α : Type} [LinearOrderedField α] (d : ℤ → ℤ → α) (n : ℕ)

theorem selectStep_length (sel : List ℤ) :
    (selectStep d n sel).length = sel.length + 1 := by
  unfold selectStep
  split <;> simp

theorem iterate_length (m : ℕ) (sel : List ℤ) :
    ((selectStep d n)^[m] sel).length = sel.length + m := by
  induction m generalizing sel with
  | zero => simp
  | succ m ih =>
    rw [Function.iterate_succ_apply, ih, selectStep_length]
    omega

theorem selectStep_extends (sel : List ℤ) : sel <+: selectStep d n sel := by
  unfold selectStep
  split <;> exact ⟨_, rfl⟩

theorem iterate_extends (m : ℕ) (sel : List ℤ) :
    sel <+: (selectStep d n)^[m] sel := by
  induction m generalizing sel with
  | zero => exact ⟨[], List.append_nil sel⟩
  | succ m ih =>
    rw [Function.iterate_succ_apply]
    exact (selectStep_extends d n sel).trans (ih (selectStep d n sel))

theorem iterate_mono {m m' : ℕ} (h : m ≤ m') :
    (selectStep d n)^[m] [] <+: (selectStep d n)^[m'] [] := by
  obtain ⟨c, rfl⟩ := Nat.exists_eq_add_of_le h
  rw [Nat.add_comm, Function.iterate_add_apply]
  exact iterate_extends d n c ((selectStep d n)^[m] [])

theorem selectStep_ne_nil (sel : List ℤ) : selectStep d n sel ≠ [] := by
  unfold selectStep
  split <;> simp

theorem iterate_head (m : ℕ) (sel : List ℤ) (h : sel ≠ []) :
    ((selectStep d n)^[m] sel).head? = sel.head? := by
  induction m generalizing sel with
  | zero => simp
  | succ m ih =>
    rw [Function.iterate_succ_apply, ih _ (selectStep_ne_nil d n sel)]
    unfold selectStep
    split
    · simp_all
    · exact List.head?_append_of_ne_nil sel h

theorem diversityScore_nonneg (hd : ∀ i j, 0 ≤ d i j) (sel : List ℤ) (i : ℤ) :
    0 ≤ diversityScore d sel i := by
  unfold diversityScore
  refine div_nonneg (List.sum_nonneg ?_) (Nat.cast_nonneg _)
  intro x hx
  obtain ⟨j, _, rfl⟩ := List.mem_map.1 hx
  exact hd i j

end SelectionLemmas

/-- Characterization of the candidate scan of app.py lines 189-201 over an
arbitrary strictly increasing candidate list: either no untaken candidate
beats the initial `max_diff = -1` and the accumulator is untouched, or the
scan returns the first-encountered untaken candidate attaining the largest
diversity score. -/
theorem scan_spec {α : Type} [LinearOrderedField α] (d : ℤ → ℤ → α) (sel : List ℤ)
    (l : List ℕ) (hl : l.Pairwise (· < ·)) :
    (List.foldl (scanF d sel) (-1, -1) l = (-1, -1) ∧
       ∀ i ∈ l, (i : ℤ) ∉ sel → diversityScore d sel (i : ℤ) ≤ -1) ∨
    (∃ i ∈ l, (i : ℤ) ∉ sel ∧
       List.foldl (scanF d sel) (-1, -1) l = (diversityScore d sel (i : ℤ), (i : ℤ)) ∧
       (∀ j ∈ l, (j : ℤ) ∉ sel →
          diversityScore d sel (j : ℤ) ≤ diversityScore d sel (i : ℤ)) ∧
       (∀ j ∈ l, (j : ℤ) ∉ sel → j < i →
          diversityScore d sel (j : ℤ) < diversityScore d sel (i : ℤ))) := by
  induction l using List.reverseRecOn with
  | nil => exact Or.inl ⟨rfl, by simp⟩
  | append_singleton l a ih =>
    obtain ⟨hl1, -, hlt⟩ := List.pairwise_append.1 hl
    have hlt' : ∀ x ∈ l, x < a := fun x hx => hlt x hx a (List.mem_singleton_self a)
    set r := List.foldl (scanF d sel) (-1, -1) l with hr_def
    have hstep : List.foldl (scanF d sel) (-1, -1) (l ++ [a]) = scanF d sel r a := by
      rw [List.foldl_append]; rfl
    have hscan : scanF d sel r a =
        if (a : ℤ) ∈ sel then r
        else if diversityScore d sel (a : ℤ) > r.1
          then (diversityScore d sel (a : ℤ), (a : ℤ)) else r := rfl
    by_cases ha : (a : ℤ) ∈ sel
    · rw [if_pos ha] at hscan
      rcases ih hl1 with ⟨heq, hall⟩ | ⟨i, hil, hinot, heq, hmax, hstr⟩
      · refine Or.inl ⟨by rw [hstep, hscan, heq], ?_⟩
        intro i hi hnot
        rcases List.mem_append.1 hi with hi | hi
        · exact hall i hi hnot
        · rw [List.mem_singleton.1 hi] at hnot; exact absurd ha hnot
      · refine Or.inr ⟨i, List.mem_append_left _ hil, hinot,
          by rw [hstep, hscan, heq], ?_, ?_⟩
        · intro j hj hnot
          rcases List.mem_append.1 hj with hj | hj
          · exact hmax j hj hnot
          · rw [List.mem_singleton.1 hj] at hnot; exact absurd ha hnot
        · intro j hj hnot hji
          rcases List.mem_append.1 hj with hj | hj
          · exact hstr j hj hnot hji
          · rw [List.mem_singleton.1 hj] at hnot; exact absurd ha hnot
    · rw [if_neg ha] at hscan
      rcases ih hl1 with ⟨heq, hall⟩ | ⟨i, hil, hinot, heq, hmax, hstr⟩
      · have hr1 : r.1 = -1 := by rw [heq]
        by_cases hgt : diversityScore d sel (a : ℤ) > r.1
        · rw [if_pos hgt] at hscan
          refine Or.inr ⟨a, List.mem_append_right _ (List.mem_singleton_self a), ha,
            by rw [hstep, hscan], ?_, ?_⟩
          · intro j hj hnot
            rcases List.mem_append.1 hj with hj | hj
            · exact le_of_lt (lt_of_le_of_lt (hall j hj hnot) (by rw [hr1] at hgt; exact hgt))
            · rw [List.mem_singleton.1 hj]
          · intro j hj hnot hja
            rcases List.mem_append.1 hj with hj | hj
            · exact lt_of_le_of_lt (hall j hj hnot) (by rw [hr1] at hgt; exact hgt)
            · rw [List.mem_singleton.1 hj] at hja; omega
        · rw [if_neg hgt] at hscan
          refine Or.inl ⟨by rw [hstep, hscan, heq], ?_⟩
          intro i hi hnot
          rcases List.mem_append.1 hi with hi | hi
          · exact hall i hi hnot
          · rw [List.mem_singleton.1 hi]
            rw [hr1] at hgt
            exact le_of_not_lt hgt
      · have hr1 : r.1 = diversityScore d sel (i : ℤ) := by rw [heq]
        by_cases hgt : diversityScore d sel (a : ℤ) > r.1
        · rw [if_pos hgt] at hscan
          rw [hr1] at hgt
          refine Or.inr ⟨a, List.mem_append_right _ (List.mem_singleton_self a), ha,
            by rw [hstep, hscan], ?_, ?_⟩
          · intro j hj hnot
            rcases List.mem_append.1 hj with hj | hj
            · exact le_of_lt (lt_of_le_of_lt (hmax j hj hnot) hgt)
            · rw [List.mem_singleton.1 hj]
          · intro j hj hnot hja
            rcases List.mem_append.1 hj with hj | hj
            · exact lt_of_le_of_lt (hmax j hj hnot) hgt
            · rw [List.mem_singleton.1 hj] at hja; omega
        · rw [if_neg hgt] at hscan
          rw [hr1] at hgt
          refine Or.inr ⟨i, List.mem_append_left _ hil, hinot,
            by rw [hstep, hscan, heq], ?_, ?_⟩
          · intro j hj hnot
            rcases List.mem_append.1 hj with hj | hj
            · exact hmax j hj hnot
            · rw [List.mem_singleton.1 hj]; exact le_of_not_lt hgt
          · intro j hj hnot hji
            rcases List.mem_append.1 hj with hj | hj
            · exact hstr j hj hnot hji
            · rw [List.mem_singleton.1 hj] at hji
              exact absurd (hlt' i hil) (by omega)

/-- The inner scan of app.py lines 188-201, run over `range n`, picks the
least untaken index whose diversity score is maximal, provided distances
are nonnegative and some untaken index below `n` exists. -/
theorem innerLoop_spec {α : Type} [LinearOrderedField α] (d : ℤ → ℤ → α)
    (n : ℕ) (sel : List ℤ) (hd : ∀ i j, 0 ≤ d i j)
    (hex : ∃ i : ℕ, i < n ∧ (i : ℤ) ∉ sel) :
    ∃ i : ℕ, i < n ∧ (i : ℤ) ∉ sel ∧ (innerLoop d n sel).2 = (i : ℤ) ∧
      (∀ j : ℕ, j < n → (j : ℤ) ∉ sel →
         diversityScore d sel (j : ℤ) ≤ diversityScore d sel (i : ℤ)) ∧
      (∀ j : ℕ, j < n → (j : ℤ) ∉ sel → j < i →
         diversityScore d sel (j : ℤ) < diversityScore d sel (i : ℤ)) := by
  rcases scan_spec d sel (List.range n) (List.pairwise_lt_range n) with
    ⟨-, hall⟩ | ⟨i, hil, hinot, heq, hmax, hstr⟩
  · obtain ⟨i0, hi0, hnot⟩ := hex
    have h1 := hall i0 (List.mem_range.2 hi0) hnot
    have h2 := diversityScore_nonneg d hd sel (i0 : ℤ)
    linarith
  · refine ⟨i, List.mem_range.1 hil, hinot, ?_, ?_, ?_⟩
    · show (List.foldl (scanF d sel) (-1, -1) (List.range n)).2 = (i : ℤ)
      rw [heq]
    · intro j hj hnot
      exact hmax j (List.mem_range.2 hj) hnot
    · intro j hj hnot hji
      exact hstr j (List.mem_range.2 hj) hnot hji

/-- Pigeonhole: a duplicate-free list of indices inside `[0, n)` that is
shorter than `n` misses some index below `n`. -/
theorem exists_unselected (n : ℕ) (sel : List ℤ) (hnd : sel.Nodup)
    (hlen : sel.length < n) :
    ∃ i : ℕ, i < n ∧ (i : ℤ) ∉ sel := by
  by_contra h
  push_neg at h
  have hsub : (Finset.range n).image (fun i : ℕ => (i : ℤ)) ⊆ sel.toFinset := by
    intro x hx
    obtain ⟨i, hi, rfl⟩ := Finset.mem_image.1 hx
    exact List.mem_toFinset.2 (h i (Finset.mem_range.1 hi))
  have hcard := Finset.card_le_card hsub
  rw [Finset.card_image_of_injective _ (fun a b hab => by exact_mod_cast hab),
    Finset.card_range, List.toFinset_card_of_nodup hnd] at hcard
  omega

/-- Invariant of the selection loop: as long as at most `n` iterations have
run, the selected list is duplicate-free and all its entries lie in
`[0, n)`.  Requires nonnegative distances, as produced by `torch.dist`. -/
theorem iterate_inv {α : Type} [LinearOrderedField α] (d : ℤ → ℤ → α) (n : ℕ)
    (hd : ∀ i j, 0 ≤ d i j) (m : ℕ) (hm : m ≤ n) :
    ((selectStep d n)^[m] []).Nodup ∧
      ∀ x ∈ (selectStep d n)^[m] [], 0 ≤ x ∧ x < (n : ℤ) := by
  induction m with
  | zero => simp
  | succ m ih =>
    obtain ⟨hnd, hmem⟩ := ih (by omega)
    set sel := (selectStep d n)^[m] [] with hsel_def
    rw [Function.iterate_succ_apply']
    by_cases hempty : sel = []
    · rw [← hsel_def, hempty]
      unfold selectStep
      norm_num
      omega
    · have hne : sel.isEmpty = false := List.isEmpty_eq_false.2 hempty
      have hlen : sel.length < n := by
        have := iterate_length d n m ([] : List ℤ)
        rw [← hsel_def] at this
        simp at this
        omega
      obtain ⟨i, hin, hinot, heq, -, -⟩ :=
        innerLoop_spec d n sel hd (exists_unselected n sel hnd hlen)
      rw [← hsel_def]
      unfold selectStep
      rw [if_neg (by rw [hne]; exact Bool.false_ne_true)]
      rw [heq]
      constructor
      · exact List.Nodup.append hnd (List.nodup_singleton _)
          (by intro x hx hx'; rw [List.mem_singleton.1 hx'] at hx; exact hinot hx)
      · intro x hx
        rcases List.mem_append.1 hx with hx | hx
        · exact hmem x hx
        · rw [List.mem_singleton.1 hx]
          constructor
          · exact Int.natCast_nonneg i
          · exact_mod_cast hin

/-! ### Lemmas about the question-emission loop -/

/-- The emission loop is a per-index map-filter: the final `questions` list
is the in-order concatenation of the per-index contributions, and the
number of `st.error` reports counts exactly the indices whose processing
raised. -/
theorem emit_foldl_spec (sents : List String) (gen : String → Except Unit (List String)) :
    ∀ (sel : List ℤ) (acc : List (String × String) × ℕ),
      sel.foldl (emitStep sents gen) acc =
        (acc.1 ++ sel.filterMap (emitOne sents gen),
          acc.2 + sel.countP (errFlag sents gen)) := by
  intro sel
  induction sel with
  | nil => intro acc; simp
  | cons a l ih =>
    intro acc
    rw [List.foldl_cons, ih]
    rcases hget : pyGet sents a with - | qa
    · simp [emitStep, emitOne, errFlag, hget, List.filterMap_cons, List.countP_cons]
      omega
    · rcases hgen : gen qa with _u | outs
      · simp [emitStep, emitOne, errFlag, hget, hgen, List.filterMap_cons, List.countP_cons]
        omega
      · rcases outs with - | ⟨g, t⟩
        · simp [emitStep, emitOne, errFlag, hget, hgen, List.filterMap_cons,
            List.countP_cons]
        · simp [emitStep, emitOne, errFlag, hget, hgen, List.filterMap_cons,
            List.countP_cons]

/-- The `questions` list equals the in-order `filterMap` of the per-index
contribution. -/
theorem emitQuestions_eq (sents : List String)
    (gen : String → Except Unit (List String)) (sel : List ℤ) :
    emitQuestions sents gen sel = sel.filterMap (emitOne sents gen) := by
  unfold emitQuestions emitWithLog
  rw [emit_foldl_spec]
  simp

/-! ### Lemmas about the text preprocessing -/

/-- Every whitespace character surviving whitespace collapsing is a single
space, the output never has two adjacent whitespace characters, and in the
middle of a whitespace run (flag `true`) the output never starts with one. -/
theorem collapseAux_spec : ∀ (s : List Char) (b : Bool),
    (∀ c ∈ collapseAux b s, pyIsSpace c = true → c = ' ') ∧
    (collapseAux b s).Chain' (fun x y => pyIsSpace x = false ∨ pyIsSpace y = false) ∧
    (b = true → ∀ c, (collapseAux b s).head? = some c → pyIsSpace c = false) := by
  intro s
  induction s with
  | nil =>
    intro b
    refine ⟨by simp [collapseAux], by simp [collapseAux], ?_⟩
    intro _ c hc
    simp [collapseAux] at hc
  | cons c rest ih =>
    intro b
    by_cases hc : pyIsSpace c = true
    · cases b with
      | true =>
        have hstep : collapseAux true (c :: rest) = collapseAux true rest := by
          simp [collapseAux, hc]
        rw [hstep]
        exact ⟨(ih true).1, (ih true).2.1, (ih true).2.2⟩
      | false =>
        have hstep : collapseAux false (c :: rest) = ' ' :: collapseAux true rest := by
          simp [collapseAux, hc]
        rw [hstep]
        refine ⟨?_, ?_, ?_⟩
        · intro x hx hxs
          rcases List.mem_cons.1 hx with hx | hx
          · exact hx
          · exact (ih true).1 x hx hxs
        · rw [List.chain'_cons']
          refine ⟨?_, (ih true).2.1⟩
          intro y hy
          exact Or.inr ((ih true).2.2 rfl y hy)
        · intro hb
          exact absurd hb Bool.false_ne_true
    · have hstep : collapseAux b (c :: rest) = c :: collapseAux false rest := by
        simp [collapseAux, hc]
      rw [hstep]
      refine ⟨?_, ?_, ?_⟩
      · intro x hx hxs
        rcases List.mem_cons.1 hx with hx | hx
        · rw [hx] at hxs
          exact absurd hxs hc
        · exact (ih false).1 x hx hxs
      · rw [List.chain'_cons']
        refine ⟨fun y _ => Or.inl (Bool.eq_false_iff.2 hc), (ih false).2.1⟩
      · intro _ x hx
        have hcx : c = x := by simpa using hx
        rw [← hcx]
        exact Bool.eq_false_iff.2 hc

/-- The head of a `dropWhile` never satisfies the dropped predicate. -/
theorem dropWhile_head_false (p : Char → Bool) : ∀ (l : List Char) (c : Char),
    (l.dropWhile p).head? = some c → p c = false := by
  intro l
  induction l with
  | nil => intro c hc; simp at hc
  | cons a t ih =>
    intro c hc
    by_cases ha : p a = true
    · rw [List.dropWhile_cons_of_pos ha] at hc
      exact ih c hc
    · rw [List.dropWhile_cons_of_neg ha] at hc
      simp at hc
      rw [← hc]
      exact Bool.eq_false_iff.2 ha

/-- Python `str.strip()` leaves no leading whitespace. -/
theorem pyStrip_head (s : List Char) (c : Char)
    (hc : (pyStrip s).head? = some c) : pyIsSpace c = false := by
  unfold pyStrip at hc
  rw [List.head?_reverse] at hc
  set u := (s.dropWhile pyIsSpace).reverse with hu
  rcases hda : u.dropWhile pyIsSpace with - | ⟨a, t⟩
  · rw [hda] at hc
    simp at hc
  · have hlast : (u.dropWhile pyIsSpace).getLast? = u.getLast? := by
      conv_rhs => rw [← List.takeWhile_append_dropWhile (p := pyIsSpace) (l := u)]
      rw [List.getLast?_append_of_ne_nil]
      rw [hda]
      exact List.cons_ne_nil a t
    rw [hlast, hu, List.getLast?_reverse] at hc
    exact dropWhile_head_false pyIsSpace s c hc

/-- Python `str.strip()` leaves no trailing whitespace. -/
theorem pyStrip_getLast (s : List Char) (c : Char)
    (hc : (pyStrip s).getLast? = some c) : pyIsSpace c = false := by
  unfold pyStrip at hc
  rw [List.getLast?_reverse] at hc
  exact dropWhile_head_false pyIsSpace _ c hc

/-! ### The end-to-end selection scenario over the real Euclidean distance -/

theorem sqrt_hundred : Real.sqrt 100 = 10 := by
  rw [show (100 : ℝ) = 10 ^ 2 by norm_num]
  exact Real.sqrt_sq (by norm_num)

theorem exampleDist_one_zero : exampleDist 1 0 = 10 := by
  unfold exampleDist exEmb euclidDist
  norm_num
  exact sqrt_hundred

theorem exampleDist_two_zero : exampleDist 2 0 = 10 := by
  unfold exampleDist exEmb euclidDist
  norm_num
  exact sqrt_hundred

theorem score_example_one : diversityScore exampleDist [0] 1 = 10 := by
  simp [diversityScore, exampleDist_one_zero]

theorem score_example_two : diversityScore exampleDist [0] 2 = 10 := by
  simp [diversityScore, exampleDist_two_zero]

theorem innerLoop_example : innerLoop exampleDist 3 [0] = (10, 1) := by
  have h0 : scanF exampleDist [0] (-1, -1) 0 = (-1, -1) := by
    simp [scanF]
  have h1 : scanF exampleDist [0] (-1, -1) 1 = (10, 1) := by
    norm_num [scanF, score_example_one]
  have h2 : scanF exampleDist [0] (10, 1) 2 = (10, 1) := by
    norm_num [scanF, score_example_two]
  unfold innerLoop
  rw [show List.range 3 = [0, 1, 2] from rfl]
  rw [List.foldl_cons, h0, List.foldl_cons, h1, List.foldl_cons, h2, List.foldl_nil]

theorem selectIndices_example : selectIndices exampleDist 3 2 = [0, 1] := by
  unfold selectIndices
  rw [show (min (2 : ℤ) ((3 : ℕ) : ℤ)).toNat = 2 by decide]
  rw [show (2 : ℕ) = 1 + 1 from rfl, Function.iterate_add_apply,
    Function.iterate_one]
  have hstep1 : selectStep exampleDist 3 [] = [0] := by
    simp [selectStep]
  rw [hstep1]
  have hstep2 : selectStep exampleDist 3 [0] = [0, 1] := by
    unfold selectStep
    rw [if_neg (by decide), innerLoop_example]
    rfl
  rw [hstep2]

/-! ### The claims -/

/-- C1: in the selection loop of `generate_questions`, each candidate's
diversity score is the arithmetic mean of the distances from its embedding
to every already-selected embedding, the candidate with the strictly
largest score is chosen with ties resolved to the first-encountered
(lowest) untaken index in a left-to-right scan, and for the 3 embeddings
`[(0,0), (10,0), (0,10)]` with `k = 2` the selection is exactly `[0, 1]`. -/
theorem claim1_diverse_selection :
    (∀ (α : Type) [LinearOrderedField α] (d : ℤ → ℤ → α) (sel : List ℤ) (i : ℤ),
       diversityScore d sel i = (sel.map fun j => d i j).sum / (sel.length : α)) ∧
    (∀ (α : Type) [LinearOrderedField α] (d : ℤ → ℤ → α) (n : ℕ) (sel : List ℤ),
       (∀ i j, 0 ≤ d i j) → (∃ i : ℕ, i < n ∧ (i : ℤ) ∉ sel) →
       ∃ i : ℕ, i < n ∧ (i : ℤ) ∉ sel ∧ (innerLoop d n sel).2 = (i : ℤ) ∧
         (∀ j : ℕ, j < n → (j : ℤ) ∉ sel →
            diversityScore d sel (j : ℤ) ≤ diversityScore d sel (i : ℤ)) ∧
         (∀ j : ℕ, j < n → (j : ℤ) ∉ sel → j < i →
            diversityScore d sel (j : ℤ) < diversityScore d sel (i : ℤ))) ∧
    selectIndices exampleDist 3 2 = [0, 1] := by
  refine ⟨?_, ?_, selectIndices_example⟩
  · intro α _ d sel i
    rfl
  · intro α _ d n sel hd hex
    exact innerLoop_spec d n sel hd hex

/-- Closed instance of C1 on an executable rational distance: with
`sel = [0]` and two sentences, the scan picks index 1. -/
theorem claim1_w : (innerLoop qdist 2 [0]).2 = ((1 : ℕ) : ℤ) := by
  obtain ⟨i, hi, hnot, heq, -, -⟩ :=
    claim1_diverse_selection.2.1 ℚ qdist 2 [0]
      (fun i j => Nat.cast_nonneg _) ⟨1, by decide, by decide⟩
  have hne : (i : ℤ) ≠ 0 := by
    intro h
    exact hnot (by simp [h])
  have : i = 1 := by omega
  rw [heq, this]

/-- C2: for every sentence list and every `k ≥ 1`, the selection has length
exactly `min k n`; in particular, for an empty sentence list the selection
is empty and no error is raised. -/
theorem claim2_cardinality (α : Type) [LinearOrderedField α] (d : ℤ → ℤ → α)
    (n : ℕ) (k : ℤ) (hk : 1 ≤ k) :
    ((selectIndices d n k).length : ℤ) = min k (n : ℤ) ∧ selectIndices d 0 k = [] := by
  constructor
  · unfold selectIndices
    rw [iterate_length]
    simp only [List.length_nil, Nat.zero_add]
    omega
  · unfold selectIndices
    rw [show (min k ((0 : ℕ) : ℤ)).toNat = 0 by omega]
    rfl

/-- Closed instance of C2: three sentences, `k = 2`. -/
theorem claim2_w :
    (1 : ℤ) ≤ 2 ∧
      (((selectIndices qdist 3 2).length : ℤ) = min 2 ((3 : ℕ) : ℤ) ∧
        selectIndices qdist 0 2 = []) :=
  ⟨by norm_num, claim2_cardinality ℚ qdist 3 2 (by norm_num)⟩

/-- C3: for every non-empty sentence list and every `k ≥ 1`, the first
selected index is 0 (a fixed deterministic seed). -/
theorem claim3_seed (α : Type) [LinearOrderedField α] (d : ℤ → ℤ → α)
    (n : ℕ) (k : ℤ) (hk : 1 ≤ k) (hn : 1 ≤ n) :
    (selectIndices d n k).head? = some 0 := by
  unfold selectIndices
  obtain ⟨m, hm_eq⟩ : ∃ m, (min k (n : ℤ)).toNat = m + 1 :=
    ⟨(min k (n : ℤ)).toNat - 1, by omega⟩
  rw [hm_eq, Function.iterate_succ_apply]
  have hfirst : selectStep d n [] = [0] := by simp [selectStep]
  rw [hfirst, iterate_head d n m [0] (by simp)]
  rfl

/-- Closed instance of C3: three sentences, `k = 2`. -/
theorem claim3_w : (selectIndices qdist 3 2).head? = some 0 :=
  claim3_seed ℚ qdist 3 2 (by norm_num) (by norm_num)

/-- C4: the list of selected indices only grows during the loop (each
iterate extends the previous one), and the returned selection has no
duplicate indices.  Distances from `torch.dist` are nonnegative. -/
theorem claim4_nodup (α : Type) [LinearOrderedField α] (d : ℤ → ℤ → α)
    (n : ℕ) (k : ℤ) (hd : ∀ i j, 0 ≤ d i j) :
    (∀ m m' : ℕ, m ≤ m' → (selectStep d n)^[m] [] <+: (selectStep d n)^[m'] []) ∧
    (selectIndices d n k).Nodup := by
  refine ⟨fun m m' h => iterate_mono d n h, ?_⟩
  unfold selectIndices
  exact (iterate_inv d n hd _ (by omega)).1

/-- Closed instance of C4: three sentences, `k = 2`. -/
theorem claim4_w :
    (selectStep qdist 3)^[1] [] <+: (selectStep qdist 3)^[2] [] ∧
      (selectIndices qdist 3 2).Nodup :=
  ⟨(claim4_nodup ℚ qdist 3 2 (fun i j => Nat.cast_nonneg _)).1 1 2 (by norm_num),
   (claim4_nodup ℚ qdist 3 2 (fun i j => Nat.cast_nonneg _)).2⟩

/-- C5: the selection is deterministic — equal sentence lists, equal
distances and equal `k` always produce identical index sequences (the
embedded selection has no source of randomness, including tie-breaks). -/
theorem claim5_deterministic (α : Type) [LinearOrderedField α]
    (d d' : ℤ → ℤ → α) (n n' : ℕ) (k k' : ℤ)
    (hd : d = d') (hn : n = n') (hk : k = k') :
    selectIndices d n k = selectIndices d' n' k' := by
  rw [hd, hn, hk]

/-- Closed instance of C5. -/
theorem claim5_w : selectIndices qdist 3 2 = selectIndices qdist 3 2 :=
  claim5_deterministic ℚ qdist qdist 3 3 2 2 rfl rfl rfl

/-- C6: monotone growth — for `1 ≤ k1 < k2` the selection for `k1` is a
prefix of the selection for `k2`. -/
theorem claim6_monotone (α : Type) [LinearOrderedField α] (d : ℤ → ℤ → α)
    (n : ℕ) (k1 k2 : ℤ) (hk1 : 1 ≤ k1) (hk12 : k1 < k2) :
    selectIndices d n k1 <+: selectIndices d n k2 := by
  unfold selectIndices
  exact iterate_mono d n (by omega)

/-- Closed instance of C6: `k1 = 2`, `k2 = 5`, three sentences. -/
theorem claim6_w : selectIndices qdist 3 2 <+: selectIndices qdist 3 5 :=
  claim6_monotone ℚ qdist 3 2 5 (by norm_num) (by norm_num)

/-! ### Preprocessing helpers for C7 -/

theorem preprocess_eq (tok : List Char → List (List Char)) (text : List Char)
    (h : text ≠ []) :
    preprocess_text tok text =
      (tok (pyStrip (collapseWs text))).filter fun s => 5 < wordCount s := by
  unfold preprocess_text
  rw [if_neg h]

theorem preprocess_mem (tok : List Char → List (List Char)) (text : List Char)
    (s : List Char) (hs : s ∈ preprocess_text tok text) :
    s ∈ tok (pyStrip (collapseWs text)) ∧ 5 < wordCount s := by
  by_cases h : text = []
  · subst h
    simp [preprocess_text] at hs
  · rw [preprocess_eq tok text h] at hs
    have hmem := List.mem_filter.1 hs
    exact ⟨hmem.1, by simpa using hmem.2⟩

theorem preprocess_sub (tok : List Char → List (List Char)) (text : List Char) :
    (preprocess_text tok text).Sublist (tok (pyStrip (collapseWs text))) := by
  by_cases h : text = []
  · subst h
    simp [preprocess_text]
  · rw [preprocess_eq tok text h]
    exact List.filter_sublist _

theorem preprocess_example (tok : List Char → List (List Char))
    (htok : tok exInput = [exS1, exS2]) :
    preprocess_text tok exInput = [exS2] ∧ wordCount exS1 = 1 ∧ wordCount exS2 = 9 := by
  have hclean : pyStrip (collapseWs exInput) = exInput := by decide
  refine ⟨?_, by decide, by decide⟩
  rw [preprocess_eq tok exInput (by decide), hclean, htok]
  decide

/-- C7 counterexample: on the scenario input the first tokenized sentence
is `"Short."`, whose whitespace-split word count is 1, not 2 as claimed. -/
theorem claim7_cex : wordCount exS1 = 1 ∧ ¬ wordCount exS1 = 2 := by decide

/-- C7 (amended): `preprocess_text` collapses every whitespace run to a
single space, trims both ends, tokenizes the cleaned text, and keeps, in
their original relative order, exactly the sentences with whitespace-split
word count above 5; on the scenario input the first sentence (1 word) is
dropped and the second (9 words) is kept. -/
theorem claim7_filter :
    (∀ (tok : List Char → List (List Char)) (text : List Char), text ≠ [] →
       preprocess_text tok text =
         (tok (pyStrip (collapseWs text))).filter fun s => 5 < wordCount s) ∧
    (∀ (tok : List Char → List (List Char)) (text s : List Char),
       s ∈ preprocess_text tok text →
         s ∈ tok (pyStrip (collapseWs text)) ∧ 5 < wordCount s) ∧
    (∀ (tok : List Char → List (List Char)) (text : List Char),
       (preprocess_text tok text).Sublist (tok (pyStrip (collapseWs text)))) ∧
    (∀ (s : List Char) (c : Char), c ∈ collapseWs s → pyIsSpace c = true → c = ' ') ∧
    (∀ s : List Char,
       (collapseWs s).Chain' fun x y => pyIsSpace x = false ∨ pyIsSpace y = false) ∧
    (∀ (s : List Char) (c : Char), (pyStrip s).head? = some c → pyIsSpace c = false) ∧
    (∀ (s : List Char) (c : Char), (pyStrip s).getLast? = some c → pyIsSpace c = false) ∧
    (∀ tok : List Char → List (List Char), tok exInput = [exS1, exS2] →
       preprocess_text tok exInput = [exS2] ∧
         wordCount exS1 = 1 ∧ wordCount exS2 = 9) := by
  refine ⟨preprocess_eq, preprocess_mem, preprocess_sub, ?_, ?_,
    pyStrip_head, pyStrip_getLast, preprocess_example⟩
  · intro s c hc
    exact (collapseAux_spec s false).1 c hc
  · intro s
    exact (collapseAux_spec s false).2.1

/-- Closed instance of C7 with a concrete tokenizer. -/
theorem claim7_w : preprocess_text exTok exInput = [exS2] :=
  (claim7_filter.2.2.2.2.2.2.2 exTok (by decide)).1

/-! ### C8, C9, C10 -/

/-- C8: the emission loop is a per-sentence map-filter (a failure for one
selected sentence drops only that sentence, order of survivors is the
order of their selected indices, every emitted answer is the selected
sentence verbatim), and on five selected sentences with exactly one
generation failure exactly four pairs are returned in order. -/
theorem claim8_emit_skip :
    (∀ sents gen (sel : List ℤ),
       emitQuestions sents gen sel = sel.filterMap (emitOne sents gen)) ∧
    (∀ sents gen (sel : List ℤ) (q a : String), (q, a) ∈ emitQuestions sents gen sel →
       ∃ i, i ∈ sel ∧ pyGet sents i = some a) ∧
    emitQuestions exSents exGen [0, 1, 2, 3, 4] =
      [("Qs0", "s0"), ("Qs1", "s1"), ("Qs3", "s3"), ("Qs4", "s4")] := by
  refine ⟨emitQuestions_eq, ?_, by decide⟩
  intro sents gen sel q a hp
  rw [emitQuestions_eq] at hp
  obtain ⟨i, hi, hone⟩ := List.mem_filterMap.1 hp
  refine ⟨i, hi, ?_⟩
  rcases hget : pyGet sents i with - | qa
  · simp [emitOne, hget] at hone
  · rcases hgen : gen qa with _u | outs
    · simp [emitOne, hget, hgen] at hone
    · rcases outs with - | ⟨g, t⟩
      · simp [emitOne, hget, hgen] at hone
      · simp [emitOne, hget, hgen] at hone
        exact congrArg some hone.2

/-- Closed instance of C8: the first emitted pair's answer is the first
sentence itself. -/
theorem claim8_w : pyGet exSents 0 = some "s0" := by
  obtain ⟨i, hi, hp⟩ :=
    claim8_emit_skip.2.1 exSents exGen [0] "Qs0" "s0" (by decide)
  have hi0 : i = 0 := by simpa using hi
  rw [hi0] at hp
  exact hp

/-- C9 (implicit): for every sentence list and every `k ≤ 0` the selection
loop runs zero iterations, so `generate_questions` returns an empty list
without error. -/
theorem claim9_nonpositive_k (α : Type) [LinearOrderedField α] (d : ℤ → ℤ → α)
    (gen : String → Except Unit (List String)) (sentences : List String)
    (k : ℤ) (hk : k ≤ 0) :
    (min k (sentences.length : ℤ)).toNat = 0 ∧
      selectIndices d sentences.length k = [] ∧
      generate_questions d gen sentences k = [] := by
  have h0 : (min k (sentences.length : ℤ)).toNat = 0 := by omega
  have hsel : selectIndices d sentences.length k = [] := by
    unfold selectIndices
    rw [h0]
    rfl
  refine ⟨h0, hsel, ?_⟩
  unfold generate_questions
  rw [hsel]
  rfl

/-- Closed instance of C9: `k = -3` on the five concrete sentences. -/
theorem claim9_w :
    ((-3 : ℤ) ≤ 0) ∧
      ((min (-3 : ℤ) (exSents.length : ℤ)).toNat = 0 ∧
        selectIndices qdist exSents.length (-3) = [] ∧
        generate_questions qdist exGen exSents (-3) = []) :=
  ⟨by norm_num, claim9_nonpositive_k ℚ qdist exGen exSents (-3) (by norm_num)⟩

/-- C10 (implicit): when the generation model returns an empty (falsy)
list for a selected sentence, that sentence contributes neither a pair nor
an `st.error` report — the loop behaves as if the index were absent —
whereas an exception keeps the pairs unchanged but increments the error
count by one. -/
theorem claim10_silent_empty (sents : List String)
    (gen : String → Except Unit (List String)) (sel1 sel2 : List ℤ) (i : ℤ)
    (qa : String) (hget : pyGet sents i = some qa) :
    (gen qa = Except.ok [] →
       emitWithLog sents gen (sel1 ++ i :: sel2) = emitWithLog sents gen (sel1 ++ sel2)) ∧
    (gen qa = Except.error () →
       (emitWithLog sents gen (sel1 ++ i :: sel2)).1 =
         (emitWithLog sents gen (sel1 ++ sel2)).1 ∧
       (emitWithLog sents gen (sel1 ++ i :: sel2)).2 =
         (emitWithLog sents gen (sel1 ++ sel2)).2 + 1) := by
  constructor
  · intro hgen
    unfold emitWithLog
    rw [emit_foldl_spec, emit_foldl_spec]
    simp [List.filterMap_append, List.countP_append, List.filterMap_cons,
      List.countP_cons, emitOne, errFlag, hget, hgen]
  · intro hgen
    unfold emitWithLog
    rw [emit_foldl_spec, emit_foldl_spec]
    constructor
    · simp [List.filterMap_append, List.filterMap_cons, emitOne, hget, hgen]
    · simp [List.countP_append, List.countP_cons, errFlag, hget, hgen]
      omega

/-- Closed instance of C10: an always-empty generation output leaves the
emission state untouched. -/
theorem claim10_w :
    emitWithLog exSents (fun _ => Except.ok []) ([0] ++ 1 :: [2]) =
      emitWithLog exSents (fun _ => Except.ok []) ([0] ++ [2]) :=
  (claim10_silent_empty exSents (fun _ => Except.ok []) [0] [2] 1 "s1" (by decide)).1 rfl
